import Mathlib

/-!
Verification of the core of the bhunter repository-audit tool.

The source (main.go) fetches repositories and branches from a paginated
REST API, enriches every repository with a derived creator attribute via
a bounded-concurrency orchestrator, classifies staleness, and renders
CSV.  The embedding below models timestamps as integer seconds (UTC),
Go strings as Lean `String` (operated on through `List Char` where the
source manipulates characters), fallible network calls as `Except`
values supplied by oracle functions, and the goroutine pool of
`processRepositoriesConcurrently` as an explicit transition system.
-/

namespace BHunter

/-- Go struct `Repository` (main.go lines 25-37), with the nested
`Owner` and `MainBranch` structs flattened into their leaf fields. -/
structure Repository where
  name : String
  fullName : String
  createdOn : Int
  updatedOn : Int
  ownerDisplayName : String
  ownerUsername : String
  mainBranchName : String
  deriving DecidableEq, Repr

/-- Go struct `Branch` (main.go lines 39-49), flattened. -/
structure Branch where
  name : String
  targetDate : Int
  targetAuthorDisplayName : String
  deriving DecidableEq, Repr

/-- Go struct `Commit` (main.go lines 51-60), flattened. -/
structure Commit where
  hash : String
  date : Int
  authorDisplayName : String
  message : String
  deriving DecidableEq, Repr

/-! ## Classifier (main.go lines 287-289 and 630-641) -/

/-- Go `isOlderThan(t, months)` = `time.Since(t) > Duration(months)*30*24*Hour`
(main.go line 288).  `time.Since(t)` is `now - t`; the wall clock `now` is
passed explicitly.  Durations are in seconds, so an hour is 3600. -/
def isOlderThan (now t : Int) (months : Int) : Bool :=
  decide (now - t > months * 30 * 24 * 3600)

/-- Calendar date, standing for the year/month/day components of a Go
`time.Time` as read by `Year()`, `Month()` (1-12) and `Day()`. -/
structure Date where
  year : Int
  month : Int
  day : Int
  deriving DecidableEq, Repr

/-- Go `calculateMonthsDifference(start, end)` (main.go lines 630-641):
year and month deltas, decremented when the day of month of `finish`
has not yet reached the day of month of `start`.  (`end` is a reserved
word in Lean, hence `finish`.) -/
def calculateMonthsDifference (start finish : Date) : Int :=
  let years := finish.year - start.year
  let months := finish.month - start.month
  let totalMonths := years * 12 + months
  if finish.day < start.day then totalMonths - 1 else totalMonths

/-! ## CSV escaping (main.go lines 522-529) -/

/-- The double-quote character. -/
def quoteChar : Char := Char.ofNat 34

/-- The comma character. -/
def commaChar : Char := Char.ofNat 44

/-- The newline character. -/
def newlineChar : Char := Char.ofNat 10

/-- Go `strings.ReplaceAll(field, quote, quotequote)` for the single
double-quote character: every quote becomes two quotes. -/
def doubleQuotes (field : List Char) : List Char :=
  field.flatMap fun c => if c = quoteChar then [quoteChar, quoteChar] else [c]

/-- Go `escapeCSV` (main.go lines 522-529): when the field contains a
comma, a double quote or a newline, double the internal quotes and wrap
in quotes, otherwise return the field unchanged.  `strings.Contains`
with a one-character pattern is character membership. -/
def escapeCSV (field : List Char) : List Char :=
  if field.contains commaChar || field.contains quoteChar || field.contains newlineChar then
    quoteChar :: (doubleQuotes field ++ [quoteChar])
  else
    field

/-! ## Name matching and the filter pass -/

/-- Character-list lowering, standing for Go `strings.ToLower` (the
names concerned are ASCII). -/
def toLowerList (s : List Char) : List Char := s.map Char.toLower

/-- Whether the first list is a prefix of the second, as a Bool. -/
def prefixOf : List Char → List Char → Bool
  | [], _ => true
  | _ :: _, [] => false
  | a :: as, b :: bs => a = b && prefixOf as bs

/-- Go `strings.Contains haystack needle`: the needle occurs as a
contiguous segment of the haystack (true for the empty needle). -/
def containsSub (haystack needle : List Char) : Bool :=
  match haystack with
  | [] => prefixOf needle []
  | c :: rest => prefixOf needle (c :: rest) || containsSub rest needle

/-- Go `matchesRepoName` (main.go lines 331-334): case-insensitive
substring match of `searchName` inside `repoName`. -/
def matchesRepoName (repoName searchName : String) : Bool :=
  containsSub (toLowerList repoName.data) (toLowerList searchName.data)

/-- Modelled from the spec: the include/exclude filter pass over the
repository list is documented (README, spec section 4.5) but its caller
is absent from src/main.go, which contains only the matching primitive
`matchesRepoName`.  Per the spec: when `includeTerms` is non-empty it
takes precedence and only repositories whose name matches some include
term survive; otherwise repositories whose name matches some exclude
term are dropped.  The matching primitive is the source function
`matchesRepoName`. -/
def filterRepositories (repos : List Repository)
    (includeTerms excludeTerms : List String) : List Repository :=
  if includeTerms ≠ [] then
    repos.filter fun r => includeTerms.any fun t => matchesRepoName r.name t
  else
    repos.filter fun r => !(excludeTerms.any fun t => matchesRepoName r.name t)

/-! ## Paged fetching (main.go lines 105-130 and 148-173)

A page response carries a `values` collection and a `next` cursor URL;
an empty `next` ends the walk.  The network is modelled as the list of
responses the server would hand out for the successive requests; the
fetch loop consumes one response per request and also reports how many
requests it issued. -/

/-- One page of a paginated response (`values` plus `next` cursor). -/
structure Page (α : Type) where
  values : List α
  next : String
  deriving DecidableEq, Repr

/-- Outcome of one `makeRequest`: a page, or a transport/API error. -/
abbrev PageResponse (α : Type) := Except String (Page α)

/-- The while-url-non-empty fetch loop shared by `getRepositories`
and `getBranches`: accumulate `values` page after
page, follow `next` until it is empty, abort on the first failing
request discarding everything accumulated.  Returns the result together
with the number of requests issued.  An exhausted response list stands
for a server that never answers, reported as a transport error. -/
def fetchAllAux {α : Type} (server : List (PageResponse α)) (acc : List α) (n : Nat) :
    Except String (List α) × Nat :=
  match server with
  | [] => (Except.error "no response", n)
  | r :: rest =>
    match r with
    | Except.error e => (Except.error e, n + 1)
    | Except.ok page =>
      if page.next = "" then (Except.ok (acc ++ page.values), n + 1)
      else fetchAllAux rest (acc ++ page.values) (n + 1)

/-- Paged fetch from the first request on (empty accumulator). -/
def fetchAll {α : Type} (server : List (PageResponse α)) :
    Except String (List α) × Nat :=
  fetchAllAux server [] 0

/-- Go `getRepositories` (main.go lines 105-130): the paged fetch loop
at element type `Repository`. -/
def getRepositories (server : List (PageResponse Repository)) :
    Except String (List Repository) × Nat :=
  fetchAll server

/-- Go `getBranches` (main.go lines 148-173): the paged fetch loop at
element type `Branch`. -/
def getBranches (server : List (PageResponse Branch)) :
    Except String (List Branch) × Nat :=
  fetchAll server

/-! ## Earliest-commit lookup (main.go lines 175-219) -/

/-- The slash character. -/
def slashChar : Char := Char.ofNat 47

/-- Go `strings.Split(s, sep)` for a one-character separator: split at
every occurrence, keeping empty segments (so the result always has one
more segment than there are separators). -/
def splitOnChar (sep : Char) : List Char → List (List Char)
  | [] => [[]]
  | c :: rest =>
    let r := splitOnChar sep rest
    if c = sep then [] :: r
    else
      match r with
      | [] => [[c]]
      | h :: t => (c :: h) :: t

/-- One day in seconds; Go `AddDate(0, 0, d)` on a UTC timestamp adds
`d` of these. -/
def oneDaySec : Int := 86400

/-- A network request issued by `getFirstCommit`: the single-repository
GET performed by `getRepository`, or the date-windowed commit-list GET
with its `since` and `until` parameters. -/
inductive Request where
  | repoReq : String → Request
  | commitsReq : String → Int → Int → Request
  deriving DecidableEq, Repr

/-- Go `getFirstCommit` (main.go lines 175-219).  Splits the full name
on `/` and fails fast on a malformed name; looks the repository up to
learn `createdOn`; issues one commit-list request windowed to
`[createdOn - 1 day, createdOn + 30 days]` (the response `next` cursor
is ignored: a single page is read); fails with the no-commits error on
an empty page and otherwise returns the last element of the page.  The
two network dependencies are oracle functions, and the list of requests
actually issued is returned alongside the result. -/
def getFirstCommit (repoFullName : String)
    (getRepositoryLookup : String → Except String Repository)
    (commitsQuery : String → Int → Int → Except String (Page Commit)) :
    Except String Commit × List Request :=
  let parts := splitOnChar slashChar repoFullName.data
  if parts.length ≠ 2 then
    (Except.error "invalid repository name format", [])
  else
    let repoName := String.mk (parts.getD 1 [])
    match getRepositoryLookup repoName with
    | Except.error e => (Except.error e, [Request.repoReq repoName])
    | Except.ok repo =>
      let sinceT := repo.createdOn - oneDaySec
      let untilT := repo.createdOn + 30 * oneDaySec
      let log := [Request.repoReq repoName, Request.commitsReq repoFullName sinceT untilT]
      match commitsQuery repoFullName sinceT untilT with
      | Except.error e => (Except.error e, log)
      | Except.ok page =>
        match page.values.getLast? with
        | none => (Except.error "no commits found near creation date", log)
        | some c => (Except.ok c, log)

/-! ## Concurrent enrichment (main.go lines 396-450)

`processRepositoriesConcurrently` spawns one goroutine per repository;
each goroutine acquires a slot in a counting semaphore of capacity
`maxConcurrency`, runs the creator lookup, deposits exactly one
`RepositoryResult` into a buffered channel and releases its slot.  The
pool is modelled as a transition system: a state lists the tasks not
yet admitted, the tasks currently holding a semaphore slot (whose
network call may be in flight), and the deposited results.  An `acquire`
step moves a waiting task into the running set when a slot is free; a
`finish` step completes a running task, depositing its result and
releasing its slot.  Schedules are arbitrary interleavings. -/

/-- The sentinel creator value (main.go line 405). -/
def sentinelCreator : String := "(unable to determine)"

/-- Go struct `RepositoryResult` (main.go lines 397-401). -/
structure RepositoryResult where
  repository : Repository
  creator : String
  error : Option String
  deriving DecidableEq, Repr

/-- Go `processRepositoryConcurrently` (main.go lines 404-418): start
from the sentinel creator, overwrite it only when `getFirstCommit`
succeeded with a non-empty author display name, and deposit the result
carrying the lookup error (if any).  The `getFirstCommit` call is the
oracle `lookup`, keyed by the repository full name. -/
def processRepositoryConcurrently (repo : Repository)
    (lookup : String → Except String Commit) : RepositoryResult :=
  match lookup repo.fullName with
  | Except.ok c =>
    if c.authorDisplayName ≠ "" then
      { repository := repo, creator := c.authorDisplayName, error := none }
    else
      { repository := repo, creator := sentinelCreator, error := none }
  | Except.error e =>
    { repository := repo, creator := sentinelCreator, error := some e }

/-- The multiset of results the orchestrator produces, one per input
repository, in input order. -/
def enrichAll (repos : List Repository) (lookup : String → Except String Commit) :
    List RepositoryResult :=
  repos.map fun r => processRepositoryConcurrently r lookup

/-- A state of the goroutine pool of `processRepositoriesConcurrently`. -/
structure OrchState where
  waiting : List Repository
  running : List Repository
  results : List RepositoryResult
  deriving Repr

/-- One scheduler step of the pool: acquire a waiting task when fewer
than `limit` tasks hold semaphore slots, or complete a running task
(its lookup returns, its result is deposited, its slot is released). -/
inductive OrchStep (lookup : String → Except String Commit) (limit : Nat) :
    OrchState → OrchState → Prop where
  | acquire (r : Repository) (s : OrchState) (hmem : r ∈ s.waiting)
      (hroom : s.running.length < limit) :
      OrchStep lookup limit s ⟨s.waiting.erase r, r :: s.running, s.results⟩
  | finish (r : Repository) (s : OrchState) (hmem : r ∈ s.running) :
      OrchStep lookup limit s
        ⟨s.waiting, s.running.erase r,
          processRepositoryConcurrently r lookup :: s.results⟩

/-- Initial pool state: every repository spawned and awaiting admission,
no slot held, no result deposited. -/
def orchInit (repos : List Repository) : OrchState := ⟨repos, [], []⟩

/-- States the pool can reach from the initial state. -/
def OrchReachable (lookup : String → Except String Commit) (limit : Nat)
    (repos : List Repository) (s : OrchState) : Prop :=
  Relation.ReflTransGen (OrchStep lookup limit) (orchInit repos) s

/-- A state from which no step is possible; the orchestrator has
returned. -/
def OrchStuck (lookup : String → Except String Commit) (limit : Nat)
    (s : OrchState) : Prop :=
  ∀ s2, ¬ OrchStep lookup limit s s2

/-- Pool invariant: the waiting, running and deposited repositories
together are exactly the input repositories (as a multiset), and every
deposited result is the enrichment of its own repository. -/
def OrchInv (lookup : String → Except String Commit) (repos : List Repository)
    (s : OrchState) : Prop :=
  ((s.waiting : Multiset Repository) + (s.running : Multiset Repository)
      + ((s.results.map RepositoryResult.repository : List Repository) : Multiset Repository)
    = (repos : Multiset Repository))
  ∧ ∀ res ∈ s.results, res = processRepositoryConcurrently res.repository lookup

/-! ## Concrete fixtures for witnesses and examples -/

/-- Example repository named api-core. -/
def rApi : Repository := ⟨"api-core", "ws/api-core", 0, 0, "", "", ""⟩

/-- Example repository named web-ui. -/
def rWeb : Repository := ⟨"web-ui", "ws/web-ui", 0, 0, "", "", ""⟩

/-- Example repository named archive-old. -/
def rArch : Repository := ⟨"archive-old", "ws/archive-old", 0, 0, "", "", ""⟩

/-- A creator-lookup oracle that always fails. -/
def lookupBoom : String → Except String Commit := fun _ => Except.error "boom"

/-- Example commit by Alice. -/
def cA : Commit := ⟨"h1", 5, "Alice", "m1"⟩

/-- Example commit by Bob. -/
def cB : Commit := ⟨"h2", 3, "Bob", "m2"⟩

/-- Repository oracle answering `rApi` to every name. -/
def lookRw : String → Except String Repository := fun _ => Except.ok rApi

/-- Commit-list oracle answering a fixed two-commit single page. -/
def lookCw : String → Int → Int → Except String (Page Commit) :=
  fun _ _ _ => Except.ok ⟨[cA, cB], ""⟩

/-- The pool state after running the one-repository workload whose
lookup fails; used to exhibit a concrete maximal schedule. -/
def orchFinalA : OrchState :=
  ⟨[], [], [processRepositoryConcurrently rApi lookupBoom]⟩

/-! ## Helper facts -/

/-! ### Behaviour of the fetch loop -/

/-- Walking a run of successful pages whose cursors are all non-empty
until a final page with an empty cursor: the loop returns the
accumulated concatenation and stops, regardless of what the server
would have answered next. -/
theorem fetchAllAux_ok {α : Type} (front : List (Page α)) (lastPage : Page α)
    (extra : List (PageResponse α)) (acc : List α) (n : Nat)
    (hfront : ∀ p ∈ front, p.next ≠ "") (hlast : lastPage.next = "") :
    fetchAllAux (((front ++ [lastPage]).map Except.ok) ++ extra) acc n
      = (Except.ok (acc ++ ((front ++ [lastPage]).map Page.values).flatten),
          n + front.length + 1) := by
  induction front generalizing acc n with
  | nil => simp [fetchAllAux, hlast]
  | cons p rest ih =>
    have hp : p.next ≠ "" := hfront p (by simp)
    have hrest : ∀ q ∈ rest, q.next ≠ "" := fun q hq => hfront q (by simp [hq])
    have hstep : fetchAllAux ((((p :: rest) ++ [lastPage]).map Except.ok) ++ extra) acc n
        = fetchAllAux (((rest ++ [lastPage]).map Except.ok) ++ extra)
            (acc ++ p.values) (n + 1) := by
      simp [fetchAllAux, hp]
    rw [hstep, ih (acc ++ p.values) (n + 1) hrest]
    simp only [Prod.mk.injEq, List.map_cons, List.cons_append, List.flatten_cons,
      List.append_assoc, List.length_cons]
    exact ⟨trivial, by omega⟩

/-- Walking a run of successful pages whose cursors are all non-empty
into a failing request: the loop surfaces the error and the accumulated
pages are discarded. -/
theorem fetchAllAux_err {α : Type} (front : List (Page α)) (e : String)
    (extra : List (PageResponse α)) (acc : List α) (n : Nat)
    (hfront : ∀ p ∈ front, p.next ≠ "") :
    fetchAllAux ((front.map Except.ok) ++ (Except.error e :: extra)) acc n
      = (Except.error e, n + front.length + 1) := by
  induction front generalizing acc n with
  | nil => simp [fetchAllAux]
  | cons p rest ih =>
    have hp : p.next ≠ "" := hfront p (by simp)
    have hrest : ∀ q ∈ rest, q.next ≠ "" := fun q hq => hfront q (by simp [hq])
    have hstep : fetchAllAux (((p :: rest).map Except.ok) ++ (Except.error e :: extra)) acc n
        = fetchAllAux ((rest.map Except.ok) ++ (Except.error e :: extra))
            (acc ++ p.values) (n + 1) := by
      simp [fetchAllAux, hp]
    rw [hstep, ih (acc ++ p.values) (n + 1) hrest]
    simp only [Prod.mk.injEq, List.length_cons]
    exact ⟨trivial, by omega⟩

/-! ### Behaviour of the name split -/

theorem splitOnChar_ne_nil (sep : Char) (l : List Char) :
    splitOnChar sep l ≠ [] := by
  cases l with
  | nil => simp [splitOnChar]
  | cons c rest =>
    by_cases h : c = sep
    · simp [splitOnChar, h]
    · cases hr : splitOnChar sep rest with
      | nil => simp [splitOnChar, h, hr]
      | cons h2 t => simp [splitOnChar, h, hr]

/-- Splitting yields one more segment than there are separators. -/
theorem splitOnChar_length (sep : Char) (l : List Char) :
    (splitOnChar sep l).length = l.count sep + 1 := by
  induction l with
  | nil => simp [splitOnChar]
  | cons c rest ih =>
    by_cases h : c = sep
    · subst h
      simp [splitOnChar, List.count_cons, ih]
    · cases hr : splitOnChar sep rest with
      | nil => exact absurd hr (splitOnChar_ne_nil sep rest)
      | cons h2 t =>
        rw [hr] at ih
        simp only [List.length_cons] at ih
        simp [splitOnChar, h, hr, List.count_cons, Ne.symm h]
        omega

/-- The enrichment task keeps its repository: the deposited result is
keyed by the repository it was spawned for. -/
theorem processRepositoryConcurrently_repository (repo : Repository)
    (lookup : String → Except String Commit) :
    (processRepositoryConcurrently repo lookup).repository = repo := by
  unfold processRepositoryConcurrently
  cases lookup repo.fullName with
  | ok c =>
    by_cases h : c.authorDisplayName = "" <;> simp [h]
  | error e => rfl

theorem orchInv_init (lookup : String → Except String Commit)
    (repos : List Repository) : OrchInv lookup repos (orchInit repos) := by
  constructor
  · simp [orchInit]
  · intro res hres
    simp [orchInit] at hres

theorem orchInv_step {lookup : String → Except String Commit} {limit : Nat}
    {repos : List Repository} {s s2 : OrchState}
    (hstep : OrchStep lookup limit s s2) (hinv : OrchInv lookup repos s) :
    OrchInv lookup repos s2 := by
  obtain ⟨h1, h2⟩ := hinv
  cases hstep with
  | acquire r s hmem hroom =>
    refine ⟨?_, h2⟩
    have hw : r ::ₘ ((s.waiting : Multiset Repository).erase r) = ↑s.waiting :=
      Multiset.cons_erase (Multiset.mem_coe.mpr hmem)
    show ((s.waiting.erase r : List Repository) : Multiset Repository)
        + ((r :: s.running : List Repository) : Multiset Repository)
        + ((s.results.map RepositoryResult.repository : List Repository) : Multiset Repository)
      = (repos : Multiset Repository)
    rw [← hw] at h1
    rw [← Multiset.coe_erase, ← Multiset.cons_coe, ← h1]
    simp only [← Multiset.singleton_add]
    abel
  | finish r s hmem =>
    constructor
    · have hw : r ::ₘ ((s.running : Multiset Repository).erase r) = ↑s.running :=
        Multiset.cons_erase (Multiset.mem_coe.mpr hmem)
      show ((s.waiting : List Repository) : Multiset Repository)
          + ((s.running.erase r : List Repository) : Multiset Repository)
          + (((processRepositoryConcurrently r lookup :: s.results).map
                RepositoryResult.repository : List Repository) : Multiset Repository)
        = (repos : Multiset Repository)
      rw [← hw] at h1
      rw [List.map_cons, processRepositoryConcurrently_repository,
        ← Multiset.coe_erase, ← Multiset.cons_coe, ← h1]
      simp only [← Multiset.singleton_add]
      abel
    · intro res hres
      rcases List.mem_cons.mp hres with hres | hres
      · subst hres
        rw [processRepositoryConcurrently_repository]
      · exact h2 res hres

theorem orchInv_reachable {lookup : String → Except String Commit} {limit : Nat}
    {repos : List Repository} {s : OrchState}
    (h : OrchReachable lookup limit repos s) : OrchInv lookup repos s := by
  induction h with
  | refl => exact orchInv_init lookup repos
  | tail hab hbc ih => exact orchInv_step hbc ih

/-- Reachable states hold at most `limit` semaphore slots. -/
theorem orchRunning_le {lookup : String → Except String Commit} {limit : Nat}
    {repos : List Repository} {s : OrchState}
    (h : OrchReachable lookup limit repos s) : s.running.length ≤ limit := by
  induction h with
  | refl => simp [orchInit]
  | tail hab hbc ih =>
    cases hbc with
    | acquire r t hmem hroom =>
      simp only [List.length_cons]
      omega
    | finish r t hmem =>
      exact le_trans (List.Sublist.length_le (List.erase_sublist ..)) ih

/-- Every step strictly decreases the pool measure, so no schedule runs
forever. -/
theorem orchStep_measure {lookup : String → Except String Commit} {limit : Nat}
    {s s2 : OrchState} (h : OrchStep lookup limit s s2) :
    2 * s2.waiting.length + s2.running.length
      < 2 * s.waiting.length + s.running.length := by
  cases h with
  | acquire r s hmem hroom =>
    have he := List.length_erase_of_mem hmem
    have hpos : 0 < s.waiting.length := List.length_pos_of_mem hmem
    simp only [List.length_cons, he]
    omega
  | finish r s hmem =>
    have he := List.length_erase_of_mem hmem
    have hpos : 0 < s.running.length := List.length_pos_of_mem hmem
    simp only [he]
    omega

/-- With a positive limit, a stuck pool has admitted and completed every
task. -/
theorem orchStuck_empty {lookup : String → Except String Commit} {limit : Nat}
    {s : OrchState} (hlim : 0 < limit) (hstuck : OrchStuck lookup limit s) :
    s.waiting = [] ∧ s.running = [] := by
  have hrun : s.running = [] := by
    cases hr : s.running with
    | nil => rfl
    | cons r rest =>
      exact absurd (OrchStep.finish r s (by rw [hr]; exact List.mem_cons_self r rest))
        (hstuck _)
  refine ⟨?_, hrun⟩
  cases hw : s.waiting with
  | nil => rfl
  | cons r rest =>
    refine absurd (OrchStep.acquire r s ?_ ?_) (hstuck _)
    · rw [hw]
      exact List.mem_cons_self r rest
    · rw [hrun]
      simpa using hlim

/-- A stuck reachable state has deposited the input repositories exactly
(as a multiset): one result per input, no duplicates, no drops. -/
theorem orch_final_results {lookup : String → Except String Commit} {limit : Nat}
    {repos : List Repository} {s : OrchState} (hlim : 0 < limit)
    (hreach : OrchReachable lookup limit repos s)
    (hstuck : OrchStuck lookup limit s) :
    (s.results.map RepositoryResult.repository).Perm repos := by
  obtain ⟨h1, _⟩ := orchInv_reachable hreach
  obtain ⟨hw, hr⟩ := orchStuck_empty hlim hstuck
  rw [hw, hr] at h1
  rw [← Multiset.coe_eq_coe]
  simpa using h1

/-- Characterisation of `getFirstCommit` once the name has split into
two parts and the repository lookup has succeeded: exactly one
repository request and one commit-list request are issued, the latter
windowed to one day before through thirty days after creation, and the
result is the last commit of the single page read. -/
theorem getFirstCommit_eq (fullName : String)
    (repoLookup : String → Except String Repository)
    (commitsQuery : String → Int → Int → Except String (Page Commit))
    (repo : Repository)
    (hlen : (splitOnChar slashChar fullName.data).length = 2)
    (hlook : repoLookup (String.mk ((splitOnChar slashChar fullName.data).getD 1 []))
        = Except.ok repo) :
    getFirstCommit fullName repoLookup commitsQuery
      = ((match commitsQuery fullName (repo.createdOn - oneDaySec)
              (repo.createdOn + 30 * oneDaySec) with
          | Except.error e => Except.error e
          | Except.ok page =>
            match page.values.getLast? with
            | none => Except.error "no commits found near creation date"
            | some c => Except.ok c),
         [Request.repoReq (String.mk ((splitOnChar slashChar fullName.data).getD 1 [])),
          Request.commitsReq fullName (repo.createdOn - oneDaySec)
            (repo.createdOn + 30 * oneDaySec)]) := by
  unfold getFirstCommit
  dsimp only
  rw [if_neg (fun h => h hlen), hlook]
  dsimp only
  cases hq : commitsQuery fullName (repo.createdOn - oneDaySec)
      (repo.createdOn + 30 * oneDaySec) with
  | error e => rfl
  | ok page =>
    dsimp only
    cases page.values.getLast? <;> rfl

theorem orchTraceA :
    OrchReachable lookupBoom 1 [rApi] orchFinalA
    ∧ OrchStuck lookupBoom 1 orchFinalA := by
  constructor
  · have h1 : OrchStep lookupBoom 1 (orchInit [rApi]) ⟨[], [rApi], []⟩ := by
      have e1 : ([rApi].erase rApi) = ([] : List Repository) := by simp
      have h0 := @OrchStep.acquire lookupBoom 1 rApi (orchInit [rApi])
        (by simp [orchInit]) (by simp [orchInit])
      simpa [orchInit, e1] using h0
    have h2 : OrchStep lookupBoom 1 (⟨[], [rApi], []⟩ : OrchState) orchFinalA := by
      have e1 : ([rApi].erase rApi) = ([] : List Repository) := by simp
      have h0 := @OrchStep.finish lookupBoom 1 rApi ⟨[], [rApi], []⟩ (by simp)
      simpa [orchFinalA, e1] using h0
    exact Relation.ReflTransGen.head h1 (Relation.ReflTransGen.single h2)
  · intro s2 h
    cases h with
    | acquire r s hmem hroom => simp [orchFinalA] at hmem
    | finish r s hmem => simp [orchFinalA] at hmem

/-! ## Claims -/

/-- C6: for every timestamp t and month count m, isOlderThan is true
exactly when the elapsed time from t to now exceeds m fixed 30-day
months of 24 hours each; in particular 181 days ago exceeds the 6-month
(180-day) threshold and 179 days ago does not. -/
theorem spec_is_older_than :
    ∀ now t m : Int,
      (isOlderThan now t m = true ↔ now - t > m * 30 * 24 * 3600)
      ∧ isOlderThan now (now - 181 * 86400) 6 = true
      ∧ isOlderThan now (now - 179 * 86400) 6 = false := by
  intro now t m
  refine ⟨by simp [isOlderThan], ?_, ?_⟩
  · simp only [isOlderThan, decide_eq_true_eq]
    omega
  · simp only [isOlderThan, decide_eq_false_iff_not]
    omega

/-- C7: calculateMonthsDifference equals the year and month deltas
combined, decremented by one exactly when the end day of month is below
the start day of month; in particular 2023-01-15 to 2024-12-01 gives 22
and 2023-01-20 to 2024-01-15 gives 11. -/
theorem spec_months_difference :
    (∀ s f : Date, calculateMonthsDifference s f
        = (f.year - s.year) * 12 + (f.month - s.month)
          - (if f.day < s.day then 1 else 0))
    ∧ calculateMonthsDifference ⟨2023, 1, 15⟩ ⟨2024, 12, 1⟩ = 22
    ∧ calculateMonthsDifference ⟨2023, 1, 20⟩ ⟨2024, 1, 15⟩ = 11 := by
  refine ⟨?_, by decide, by decide⟩
  intro s f
  simp only [calculateMonthsDifference]
  split <;> ring

/-- C8: escapeCSV wraps the field in quotes with internal quotes
doubled exactly when the field contains a comma, a double quote or a
newline, and returns it unchanged otherwise; the field O(apostrophe)Brien,
Inc.(quote) renders with both the comma and the quote triggering the
wrap and the internal quote doubled. -/
theorem spec_escape_csv :
    (∀ field : List Char,
        (field.contains commaChar || field.contains quoteChar
          || field.contains newlineChar) = true →
          escapeCSV field = quoteChar :: (doubleQuotes field ++ [quoteChar]))
    ∧ (∀ field : List Char,
        (field.contains commaChar || field.contains quoteChar
          || field.contains newlineChar) = false →
          escapeCSV field = field)
    ∧ escapeCSV ("O".data ++ [Char.ofNat 39] ++ "Brien, Inc.".data ++ [quoteChar])
        = [quoteChar] ++ "O".data ++ [Char.ofNat 39] ++ "Brien, Inc.".data
          ++ [quoteChar, quoteChar, quoteChar] := by
  refine ⟨?_, ?_, by decide⟩
  · intro field h
    unfold escapeCSV
    rw [if_pos h]
  · intro field h
    have hcond : ¬ ((field.contains commaChar || field.contains quoteChar
        || field.contains newlineChar) = true) := by
      rw [h]
      simp
    unfold escapeCSV
    rw [if_neg hcond]

/-- Witness for C8 at concrete fields: a field with a comma is wrapped,
a plain field is unchanged. -/
theorem spec_escape_csv_witness :
    escapeCSV ("a,b".data) = quoteChar :: (doubleQuotes "a,b".data ++ [quoteChar])
    ∧ escapeCSV ("ab".data) = "ab".data :=
  ⟨spec_escape_csv.1 "a,b".data (by decide),
   spec_escape_csv.2.1 "ab".data (by decide)⟩

/-- C5: with a non-empty include set exactly the repositories whose
name matches some include term survive (include takes precedence over
exclude); with an empty include set exactly those matching some exclude
term are dropped; on names api-core, web-ui, archive-old the exclude
set [archive] keeps the first two and the include set [api] keeps only
api-core. -/
theorem spec_filter_pass :
    (∀ (repos : List Repository) (inc exc : List String) (r : Repository),
        inc ≠ [] →
          (r ∈ filterRepositories repos inc exc
            ↔ r ∈ repos ∧ ∃ t ∈ inc, matchesRepoName r.name t = true))
    ∧ (∀ (repos : List Repository) (exc : List String) (r : Repository),
        r ∈ filterRepositories repos [] exc
          ↔ r ∈ repos ∧ ¬ ∃ t ∈ exc, matchesRepoName r.name t = true)
    ∧ filterRepositories [rApi, rWeb, rArch] [] ["archive"] = [rApi, rWeb]
    ∧ filterRepositories [rApi, rWeb, rArch] ["api"] ["archive"] = [rApi] := by
  refine ⟨?_, ?_, by decide, by decide⟩
  · intro repos inc exc r hinc
    simp [filterRepositories, hinc, List.mem_filter, List.any_eq_true]
  · intro repos exc r
    simp [filterRepositories, List.mem_filter, List.any_eq_true]

/-- Witness for C5 at a concrete repository list with a non-empty
include set. -/
theorem spec_filter_pass_witness :
    rApi ∈ filterRepositories [rApi, rWeb, rArch] ["api"] ["archive"]
      ↔ rApi ∈ [rApi, rWeb, rArch] ∧ ∃ t ∈ ["api"], matchesRepoName rApi.name t = true :=
  spec_filter_pass.1 [rApi, rWeb, rArch] ["api"] ["archive"] rApi (by decide)

/-- C3: for a paginated response sequence, the paged fetches return the
concatenation of the page values in page order using exactly one
request per page, issue no further request once a page carries an empty
next cursor (any further server answers are never consulted), and on a
failing page return the error alone, discarding all accumulated pages. -/
theorem spec_paged_fetch :
    (∀ (front : List (Page Repository)) (lastPage : Page Repository)
        (extra : List (PageResponse Repository)) (e : String),
        (∀ p ∈ front, p.next ≠ "") → lastPage.next = "" →
          getRepositories (((front ++ [lastPage]).map Except.ok) ++ extra)
            = (Except.ok (((front ++ [lastPage]).map Page.values).flatten),
                front.length + 1)
          ∧ getRepositories ((front.map Except.ok) ++ (Except.error e :: extra))
            = (Except.error e, front.length + 1))
    ∧ (∀ (front : List (Page Branch)) (lastPage : Page Branch)
        (extra : List (PageResponse Branch)) (e : String),
        (∀ p ∈ front, p.next ≠ "") → lastPage.next = "" →
          getBranches (((front ++ [lastPage]).map Except.ok) ++ extra)
            = (Except.ok (((front ++ [lastPage]).map Page.values).flatten),
                front.length + 1)
          ∧ getBranches ((front.map Except.ok) ++ (Except.error e :: extra))
            = (Except.error e, front.length + 1)) := by
  constructor
  · intro front lastPage extra e hfront hlast
    constructor
    · have h := fetchAllAux_ok front lastPage extra [] 0 hfront hlast
      simpa [getRepositories, fetchAll] using h
    · have h := fetchAllAux_err front e extra [] 0 hfront
      simpa [getRepositories, fetchAll] using h
  · intro front lastPage extra e hfront hlast
    constructor
    · have h := fetchAllAux_ok front lastPage extra [] 0 hfront hlast
      simpa [getBranches, fetchAll] using h
    · have h := fetchAllAux_err front e extra [] 0 hfront
      simpa [getBranches, fetchAll] using h

/-- Witness for C3 at a concrete two-page sequence and a concrete
failing second page. -/
theorem spec_paged_fetch_witness :
    getRepositories (((([⟨[rApi], "u2"⟩] : List (Page Repository))
          ++ ([⟨[rWeb], ""⟩] : List (Page Repository))).map Except.ok) ++ [])
        = (Except.ok [rApi, rWeb], 2)
    ∧ getRepositories ((([⟨[rApi], "u2"⟩] : List (Page Repository)).map Except.ok)
          ++ (Except.error "x" :: []))
        = (Except.error "x", 2) := by
  have h := spec_paged_fetch.1 [⟨[rApi], "u2"⟩] ⟨[rWeb], ""⟩ [] "x"
    (by decide) (by decide)
  exact ⟨h.1, h.2⟩

/-- C10: when the repository full name does not split on the slash into
exactly two parts, getFirstCommit fails with the invalid-format error
having issued no network request at all; and a name containing exactly
one slash always splits into exactly two parts, so under that
precondition the error branch is unreachable. -/
theorem spec_invalid_name_early :
    ∀ (fullName : String)
      (repoLookup : String → Except String Repository)
      (commitsQuery : String → Int → Int → Except String (Page Commit)),
      ((splitOnChar slashChar fullName.data).length ≠ 2 →
        getFirstCommit fullName repoLookup commitsQuery
          = (Except.error "invalid repository name format", []))
      ∧ (fullName.data.count slashChar = 1 →
          (splitOnChar slashChar fullName.data).length = 2) := by
  intro fullName repoLookup commitsQuery
  constructor
  · intro h
    unfold getFirstCommit
    dsimp only
    rw [if_pos h]
  · intro h
    rw [splitOnChar_length, h]

/-- Witness for C10: a slash-free name fails fast with an empty request
log, and a one-slash name splits into two parts. -/
theorem spec_invalid_name_early_witness :
    getFirstCommit "wsrepo" lookRw lookCw
        = (Except.error "invalid repository name format", [])
    ∧ (splitOnChar slashChar "ws/repo".data).length = 2 :=
  ⟨(spec_invalid_name_early "wsrepo" lookRw lookCw).1 (by decide),
   (spec_invalid_name_early "ws/repo" lookRw lookCw).2 (by decide)⟩

/-- C4: once the repository lookup yields creation timestamp c, the
earliest-commit lookup issues exactly one commit-list request windowed
to since c minus one day and until c plus thirty days (and nothing
else besides the repository request), reads that single page, fails
with the no-commits error exactly when the page values are empty, and
otherwise returns the last element of the page. -/
theorem spec_first_commit_window :
    ∀ (fullName : String)
      (repoLookup : String → Except String Repository)
      (commitsQuery : String → Int → Int → Except String (Page Commit))
      (repo : Repository),
      (splitOnChar slashChar fullName.data).length = 2 →
      repoLookup (String.mk ((splitOnChar slashChar fullName.data).getD 1 []))
        = Except.ok repo →
      ((getFirstCommit fullName repoLookup commitsQuery).2
          = [Request.repoReq
               (String.mk ((splitOnChar slashChar fullName.data).getD 1 [])),
             Request.commitsReq fullName (repo.createdOn - oneDaySec)
               (repo.createdOn + 30 * oneDaySec)])
      ∧ ∀ page : Page Commit,
          commitsQuery fullName (repo.createdOn - oneDaySec)
              (repo.createdOn + 30 * oneDaySec) = Except.ok page →
          (((getFirstCommit fullName repoLookup commitsQuery).1
              = Except.error "no commits found near creation date")
            ↔ page.values = [])
          ∧ ∀ hne : page.values ≠ [],
              (getFirstCommit fullName repoLookup commitsQuery).1
                = Except.ok (page.values.getLast hne) := by
  intro fullName repoLookup commitsQuery repo hlen hlook
  have heq := getFirstCommit_eq fullName repoLookup commitsQuery repo hlen hlook
  constructor
  · rw [heq]
  · intro page hq
    constructor
    · rw [heq]
      dsimp only
      rw [hq]
      dsimp only
      cases hv : page.values.getLast? with
      | none =>
        have hnil : page.values = [] := List.getLast?_eq_none_iff.mp hv
        simp [hnil]
      | some c =>
        have hne2 : page.values ≠ [] := by
          intro hnil
          rw [hnil] at hv
          simp at hv
        simp [hne2]
    · intro hne
      rw [heq]
      dsimp only
      rw [hq]
      dsimp only
      rw [List.getLast?_eq_getLast_of_ne_nil hne]

/-- Witness for C4 at a concrete two-commit page: the last commit is
returned and the request log shows the one-day-before to
thirty-days-after window. -/
theorem spec_first_commit_window_witness :
    (getFirstCommit "ws/api-core" lookRw lookCw).1 = Except.ok cB
    ∧ (getFirstCommit "ws/api-core" lookRw lookCw).2
        = [Request.repoReq "api-core",
           Request.commitsReq "ws/api-core" (-86400) 2592000] := by
  have h := spec_first_commit_window "ws/api-core" lookRw lookCw rApi (by decide) rfl
  constructor
  · exact (h.2 ⟨[cA, cB], ""⟩ rfl).2 (by decide)
  · rw [h.1]
    decide

/-- C2: if the creator lookup for a repository fails, or succeeds with
an empty author display name, the enrichment task still returns (it is
total, never raising) a result for that very repository whose creator
is the sentinel, and the number of results always equals the number of
input repositories whatever the lookup does. -/
theorem spec_enrichment_failure_isolated :
    ∀ (repo : Repository) (lookup : String → Except String Commit),
      (((∃ e, lookup repo.fullName = Except.error e)
          ∨ (∃ c, lookup repo.fullName = Except.ok c ∧ c.authorDisplayName = "")) →
        (processRepositoryConcurrently repo lookup).creator = sentinelCreator)
      ∧ (processRepositoryConcurrently repo lookup).repository = repo
      ∧ ∀ repos : List Repository, (enrichAll repos lookup).length = repos.length := by
  intro repo lookup
  refine ⟨?_, processRepositoryConcurrently_repository repo lookup, ?_⟩
  · rintro (⟨e, he⟩ | ⟨c, hc, hname⟩)
    · simp [processRepositoryConcurrently, he]
    · simp [processRepositoryConcurrently, hc, hname]
  · intro repos
    simp [enrichAll]

/-- Witness for C2 with an always-failing lookup on a two-repository
workload. -/
theorem spec_enrichment_failure_isolated_witness :
    (processRepositoryConcurrently rApi lookupBoom).creator = sentinelCreator
    ∧ (enrichAll [rApi, rWeb] lookupBoom).length = 2 := by
  have h := spec_enrichment_failure_isolated rApi lookupBoom
  exact ⟨h.1 (Or.inl ⟨"boom", rfl⟩), h.2.2 [rApi, rWeb]⟩

/-- C1: for every input repository list and every positive concurrency
limit, whenever the pool of processRepositoriesConcurrently has reached
a state where no task can make a step (the orchestrator returns), the
result list has exactly the length of the input list and its underlying
repositories are a permutation of the inputs: one result per input, no
duplicates, no drops, whatever the lookups did. -/
theorem spec_orchestrator_total :
    ∀ (repos : List Repository) (lookup : String → Except String Commit)
      (limit : Nat), 0 < limit →
      ∀ s : OrchState, OrchReachable lookup limit repos s →
        OrchStuck lookup limit s →
        s.results.length = repos.length
        ∧ (s.results.map RepositoryResult.repository).Perm repos := by
  intro repos lookup limit hlim s hreach hstuck
  have hperm := orch_final_results hlim hreach hstuck
  refine ⟨?_, hperm⟩
  have hlen := hperm.length_eq
  simpa using hlen

/-- Witness for C1: the concrete one-repository schedule with a failing
lookup ends with exactly one result carrying that repository. -/
theorem spec_orchestrator_total_witness :
    orchFinalA.results.length = [rApi].length
    ∧ (orchFinalA.results.map RepositoryResult.repository).Perm [rApi] :=
  spec_orchestrator_total [rApi] lookupBoom 1 (by decide) orchFinalA
    orchTraceA.1 orchTraceA.2

/-- C9: in every reachable pool state at most limit tasks hold
semaphore slots, so at most limit creator-lookup network calls are
outstanding at any instant; every step strictly decreases a finite
measure, so no schedule runs forever; and with a positive limit every
maximal schedule ends with one deposited result per spawned task, so
every task is eventually admitted and completed (no starvation). -/
theorem spec_bounded_concurrency :
    ∀ (repos : List Repository) (lookup : String → Except String Commit)
      (limit : Nat),
      (∀ s : OrchState, OrchReachable lookup limit repos s →
        s.running.length ≤ limit)
      ∧ (∀ s s2 : OrchState, OrchStep lookup limit s s2 →
          2 * s2.waiting.length + s2.running.length
            < 2 * s.waiting.length + s.running.length)
      ∧ (0 < limit →
          ∀ s : OrchState, OrchReachable lookup limit repos s →
            OrchStuck lookup limit s → s.results.length = repos.length) := by
  intro repos lookup limit
  refine ⟨fun s h => orchRunning_le h, fun s s2 h => orchStep_measure h, ?_⟩
  intro hlim s hreach hstuck
  have hperm := orch_final_results hlim hreach hstuck
  have hlen := hperm.length_eq
  simpa using hlen

/-- Witness for C9 on the concrete one-repository schedule. -/
theorem spec_bounded_concurrency_witness :
    orchFinalA.running.length ≤ 1 ∧ orchFinalA.results.length = [rApi].length := by
  have h := spec_bounded_concurrency [rApi] lookupBoom 1
  exact ⟨h.1 orchFinalA orchTraceA.1,
    h.2.2 (by decide) orchFinalA orchTraceA.1 orchTraceA.2⟩

end BHunter

